import Mathlib

/-!
Verification of the candidate-retrieval and heuristic re-ranking engines of
the marketplace repository, together with two frontend helpers.

The retrieval engine, scorer, metric and optimizers (backend modules 1 and 2)
are not shipped under src/ of this snapshot — only their documentation and the
web client are.  The definitions for those components are therefore modelled
from the spec (each such definition says so in its doc comment).  The two
frontend helpers (pageRange, searchProducts) are translated directly from
src/unnamed/part_001 and src/web/src/api.ts.

Prices, ratings and money amounts are embedded as rationals (ℚ); the scoring
and metric layers, which use logarithms and exp, live in ℝ.
-/

namespace Marketplace

/-! ## Data model (modelled from the spec, §3) -/

/-- Modelled from the spec: an immutable catalog item.  Price is a rational
number of currency units (one cent = 1/100), seller rating lives in [0,5]. -/
structure Item where
  id : String
  title : String
  price : ℚ
  category : String
  store : String
  rating : ℚ
  ratingCount : Option ℕ
  description : Option String
  featureBullets : List String
  deriving DecidableEq

/-- A catalog is its list of items; the id → item mapping and the category
index are derived from it.  The catalog invariant is that ids are unique. -/
abbrev Catalog := List Item

/-- Modelled from the spec: sort order of a Constraint Spec;
`rel` is the spec's "none" (relevance / insertion order). -/
inductive SortOrder where
  | rel
  | priceAsc
  | priceDesc
  | ratingAsc
  | ratingDesc
  deriving DecidableEq

/-- Modelled from the spec: the four retrieval strategies. -/
inductive Strategy where
  | scan
  | bfs
  | dfs
  | priority
  deriving DecidableEq

/-- Modelled from the spec: a validated Constraint Spec. -/
structure ConstraintSpec where
  priceMin : Option ℚ
  priceMax : Option ℚ
  category : Option String
  minRating : Option ℚ
  store : Option String
  sortOrder : SortOrder
  strategy : Strategy
  deriving DecidableEq

/-- Case-insensitive string equality (category and store matching). -/
def strEqCI (a b : String) : Bool := a.toLower == b.toLower

/-- Modelled from the spec: the full validated predicate applied to each item
(price range inclusive at both bounds, case-insensitive category and store,
minimum rating). -/
def specMatches (s : ConstraintSpec) (it : Item) : Bool :=
  (match s.priceMin with | some a => decide (a ≤ it.price) | none => true) &&
  (match s.priceMax with | some b => decide (it.price ≤ b) | none => true) &&
  (match s.category with | some c => strEqCI it.category c | none => true) &&
  (match s.minRating with | some r => decide (r ≤ it.rating) | none => true) &&
  (match s.store with | some st => strEqCI it.store st | none => true)

/-! ## Search tree (modelled from the spec, §4.2 and §9): three-level
hierarchy Category → Store → item ids, built from the catalog snapshot. -/

/-- Modelled from the spec: a store node holds references to item ids. -/
structure StoreNode where
  store : String
  ids : List String
  deriving DecidableEq

/-- Modelled from the spec: a category node owns its store nodes. -/
structure CatNode where
  cat : String
  stores : List StoreNode
  deriving DecidableEq

/-- Modelled from the spec: build the three-level search tree from a catalog
snapshot — one node per distinct category, under it one node per distinct
store within that category, holding the item ids of that store. -/
def buildTree (c : Catalog) : List CatNode :=
  ((c.map Item.category).dedup).map (fun cat =>
    let inCat := c.filter (fun it => it.category == cat)
    { cat := cat
      stores := ((inCat.map Item.store).dedup).map (fun st =>
        { store := st
          ids := (inCat.filter (fun it => it.store == st)).map Item.id }) })

/-- A category name passes the spec's category constraint. -/
def keepCatName (s : ConstraintSpec) (cat : String) : Bool :=
  match s.category with
  | some c => strEqCI cat c
  | none => true

/-- A store name passes the spec's store constraint. -/
def keepStoreName (s : ConstraintSpec) (st : String) : Bool :=
  match s.store with
  | some st0 => strEqCI st st0
  | none => true

/-- Modelled from the spec: a category node survives pruning iff the spec
names no category or names (case-insensitively) this node's category. -/
def keepCat (s : ConstraintSpec) (n : CatNode) : Bool :=
  keepCatName s n.cat

/-- Modelled from the spec: a store node survives pruning iff the spec names
no store or names this node's store. -/
def keepStore (s : ConstraintSpec) (n : StoreNode) : Bool :=
  keepStoreName s n.store

/-- Look an id up in the catalog (first item with that id). -/
def lookup (c : Catalog) (id : String) : Option Item :=
  c.find? (fun it => it.id == id)

/-- Modelled from the spec: the final per-item predicate check applied to the
ids collected at a store node — each id is resolved against the catalog and
kept only when the full validated predicate holds. -/
def storeCandidates (c : Catalog) (s : ConstraintSpec) (ids : List String) :
    List String :=
  ids.filter (fun id =>
    match lookup c id with
    | some it => specMatches s it
    | none => false)

/-- Modelled from the spec: unordered scan — iterate every catalog item
directly and apply the full predicate, no tree involved. -/
def scanCandidates (c : Catalog) (s : ConstraintSpec) : List String :=
  (c.filter (fun it => specMatches s it)).map Item.id

/-- Modelled from the spec: breadth-first (level-order) traversal — all
surviving category nodes first, then all their surviving store nodes, then
the item leaves, pruned subtrees skipped. -/
def bfsCandidates (c : Catalog) (s : ConstraintSpec) : List String :=
  let cats := (buildTree c).filter (keepCat s)
  let stores := (cats.flatMap CatNode.stores).filter (keepStore s)
  stores.flatMap (fun sn => storeCandidates c s sn.ids)

/-- Depth-first helper: explore the store nodes of one category branch. -/
def dfsStores (c : Catalog) (s : ConstraintSpec) : List StoreNode → List String
  | [] => []
  | sn :: rest =>
      (if keepStore s sn then storeCandidates c s sn.ids else []) ++
        dfsStores c s rest

/-- Depth-first helper: explore category branches one after the other. -/
def dfsCats (c : Catalog) (s : ConstraintSpec) : List CatNode → List String
  | [] => []
  | cn :: rest =>
      (if keepCat s cn then dfsStores c s cn.stores else []) ++ dfsCats c s rest

/-- Modelled from the spec: depth-first traversal — fully explore one
category/store branch before backtracking, pruned subtrees skipped. -/
def dfsCandidates (c : Catalog) (s : ConstraintSpec) : List String :=
  dfsCats c s (buildTree c)

/-- Modelled from the spec: heuristic penalty of a category node — a large
penalty when the spec names a different category, 0 otherwise. -/
def catPenalty (s : ConstraintSpec) (n : CatNode) : ℚ :=
  if keepCat s n then 0 else 1000

/-- Modelled from the spec: heuristic penalty of a store node — a smaller
large penalty when the spec names a different store, 0 otherwise. -/
def storePenalty (s : ConstraintSpec) (n : StoreNode) : ℚ :=
  if keepStore s n then 0 else 100

/-- Modelled from the spec: heuristic penalty of an item — price distance
outside the requested range plus rating shortfall below the requested
minimum (0 when every active constraint is satisfied). -/
def itemPenalty (s : ConstraintSpec) (it : Item) : ℚ :=
  (match s.priceMin with
   | some a => max (a - it.price) 0
   | none => 0) +
  (match s.priceMax with
   | some b => max (it.price - b) 0
   | none => 0) +
  (match s.minRating with
   | some r => max (r - it.rating) 0
   | none => 0)

/-- Heuristic penalty of an id as enqueued by the priority traversal. -/
def idPenalty (c : Catalog) (s : ConstraintSpec) (id : String) : ℚ :=
  match lookup c id with
  | some it => itemPenalty s it
  | none => 0

/-- Modelled from the spec: priority (informed) traversal — nodes and leaves
are dequeued least-penalty-first (insertion order breaking ties, which the
stable insertion sort preserves), pruned subtrees skipped, and the full
predicate still applied to every item. -/
def priorityCandidates (c : Catalog) (s : ConstraintSpec) : List String :=
  let cats :=
    (List.insertionSort (fun a b => catPenalty s a ≤ catPenalty s b)
      (buildTree c)).filter (keepCat s)
  cats.flatMap (fun cn =>
    let stores :=
      (List.insertionSort (fun a b => storePenalty s a ≤ storePenalty s b)
        cn.stores).filter (keepStore s)
    stores.flatMap (fun sn =>
      storeCandidates c s
        (List.insertionSort (fun a b => idPenalty c s a ≤ idPenalty c s b)
          sn.ids)))

/-- Modelled from the spec: strategy dispatch — the candidate ids collected
by the requested traversal strategy, before sorting and truncation. -/
def candidates (c : Catalog) (s : ConstraintSpec) : Strategy → List String
  | .scan => scanCandidates c s
  | .bfs => bfsCandidates c s
  | .dfs => dfsCandidates c s
  | .priority => priorityCandidates c s

/-! ## Strategy equivalence: supporting lemmas -/

/-- An item found by `lookup` is a catalog member carrying the looked-up id. -/
lemma lookup_eq_some {c : Catalog} {id : String} {it : Item}
    (h : lookup c id = some it) : it ∈ c ∧ it.id = id := by
  refine ⟨List.mem_of_find?_eq_some h, ?_⟩
  have := List.find?_some h
  simpa using this

/-- Under the catalog invariant (unique ids), `lookup` recovers each member. -/
lemma lookup_of_mem {c : Catalog} {it : Item}
    (hnd : (c.map Item.id).Nodup) (hit : it ∈ c) :
    lookup c it.id = some it := by
  induction c with
  | nil => cases hit
  | cons a t ih =>
      simp only [List.map_cons, List.nodup_cons] at hnd
      rcases List.mem_cons.mp hit with h | h
      · subst h
        simp [lookup, List.find?]
      · have hne : (a.id == it.id) = false := by
          rcases instDecidableEqString a.id it.id with hid | hid
          · simpa using hid
          · exact absurd (hid ▸ List.mem_map_of_mem Item.id h) hnd.1
        have := ih hnd.2 h
        simp only [lookup, List.find?, hne] at this ⊢
        exact this

/-- Membership in the per-store candidate collection. -/
lemma mem_storeCandidates {c : Catalog} {s : ConstraintSpec}
    {ids : List String} {id : String} :
    id ∈ storeCandidates c s ids ↔
      id ∈ ids ∧ ∃ it, lookup c id = some it ∧ specMatches s it = true := by
  simp only [storeCandidates, List.mem_filter]
  constructor
  · rintro ⟨hmem, hcond⟩
    refine ⟨hmem, ?_⟩
    cases hl : lookup c id with
    | none => rw [hl] at hcond; cases hcond
    | some it => rw [hl] at hcond; exact ⟨it, rfl, hcond⟩
  · rintro ⟨hmem, it, hl, hm⟩
    exact ⟨hmem, by rw [hl]; exact hm⟩

/-- Membership in the unordered-scan candidates. -/
lemma mem_scanCandidates {c : Catalog} {s : ConstraintSpec} {id : String} :
    id ∈ scanCandidates c s ↔
      ∃ it ∈ c, it.id = id ∧ specMatches s it = true := by
  simp only [scanCandidates, List.mem_map, List.mem_filter]
  constructor
  · rintro ⟨it, ⟨hmem, hm⟩, hid⟩
    exact ⟨it, hmem, hid, hm⟩
  · rintro ⟨it, hmem, hid, hm⟩
    exact ⟨it, ⟨hmem, hm⟩, hid⟩

/-- A matching item passes both pruning checks (the per-item predicate is
stronger than the node-level pruning conditions). -/
lemma keep_of_specMatches {s : ConstraintSpec} {it : Item}
    (h : specMatches s it = true) :
    keepCatName s it.category = true ∧ keepStoreName s it.store = true := by
  simp only [specMatches, Bool.and_eq_true] at h
  obtain ⟨⟨⟨⟨_, _⟩, hcat⟩, _⟩, hst⟩ := h
  constructor
  · simp only [keepCatName]
    cases hc : s.category with
    | none => rfl
    | some cr => rw [hc] at hcat; exact hcat
  · simp only [keepStoreName]
    cases hs : s.store with
    | none => rfl
    | some sr => rw [hs] at hst; exact hst

/-- Tree completeness: every catalog item sits in the node of its category
and store, with its id recorded at the store leaf. -/
lemma buildTree_complete {c : Catalog} {it : Item} (hit : it ∈ c) :
    ∃ cn ∈ buildTree c, cn.cat = it.category ∧
      ∃ sn ∈ cn.stores, sn.store = it.store ∧ it.id ∈ sn.ids := by
  classical
  simp only [buildTree]
  refine ⟨_, List.mem_map_of_mem _ (List.mem_dedup.mpr
    (List.mem_map_of_mem Item.category hit)), rfl, ?_⟩
  have hin : it ∈ c.filter (fun x => x.category == it.category) :=
    List.mem_filter.mpr ⟨hit, by simp⟩
  refine ⟨_, List.mem_map_of_mem _ (List.mem_dedup.mpr
    (List.mem_map_of_mem Item.store hin)), rfl, ?_⟩
  exact List.mem_map_of_mem Item.id (List.mem_filter.mpr ⟨hin, by simp⟩)

/-- The common shape of the three tree traversals: what it means for an id to
be collected at some unpruned store leaf. -/
def TreeHit (c : Catalog) (s : ConstraintSpec) (id : String) : Prop :=
  ∃ cn ∈ buildTree c, keepCat s cn = true ∧
    ∃ sn ∈ cn.stores, keepStore s sn = true ∧ id ∈ storeCandidates c s sn.ids

/-- Under the unique-id invariant, hitting an unpruned store leaf is the same
as passing the flat scan. -/
lemma treeHit_iff_scan {c : Catalog} {s : ConstraintSpec} {id : String}
    (hnd : (c.map Item.id).Nodup) :
    TreeHit c s id ↔ id ∈ scanCandidates c s := by
  constructor
  · rintro ⟨cn, _, _, sn, _, _, hsc⟩
    rcases mem_storeCandidates.mp hsc with ⟨_, it, hl, hm⟩
    rcases lookup_eq_some hl with ⟨hmem, hid⟩
    exact mem_scanCandidates.mpr ⟨it, hmem, hid, hm⟩
  · intro hscan
    rcases mem_scanCandidates.mp hscan with ⟨it, hmem, hid, hm⟩
    rcases buildTree_complete hmem with ⟨cn, hcn, hcat, sn, hsn, hst, hidmem⟩
    rcases keep_of_specMatches hm with ⟨hk1, hk2⟩
    refine ⟨cn, hcn, by rw [keepCat, hcat]; exact hk1,
      sn, hsn, by rw [keepStore, hst]; exact hk2, ?_⟩
    refine mem_storeCandidates.mpr ⟨hid ▸ hidmem, it, ?_, hm⟩
    rw [← hid]
    exact lookup_of_mem hnd hmem

/-- BFS collects exactly the ids hitting unpruned store leaves. -/
lemma mem_bfsCandidates {c : Catalog} {s : ConstraintSpec} {id : String} :
    id ∈ bfsCandidates c s ↔ TreeHit c s id := by
  simp only [bfsCandidates, TreeHit, List.mem_flatMap, List.mem_filter]
  constructor
  · rintro ⟨sn, ⟨⟨cn, ⟨hcn, hkc⟩, hsn⟩, hks⟩, hsc⟩
    exact ⟨cn, hcn, hkc, sn, hsn, hks, hsc⟩
  · rintro ⟨cn, hcn, hkc, sn, hsn, hks, hsc⟩
    exact ⟨sn, ⟨⟨cn, ⟨hcn, hkc⟩, hsn⟩, hks⟩, hsc⟩

/-- DFS store-level recursion collects exactly the unpruned store hits. -/
lemma mem_dfsStores {c : Catalog} {s : ConstraintSpec} {id : String}
    {l : List StoreNode} :
    id ∈ dfsStores c s l ↔
      ∃ sn ∈ l, keepStore s sn = true ∧ id ∈ storeCandidates c s sn.ids := by
  induction l with
  | nil => simp [dfsStores]
  | cons sn rest ih =>
      simp only [dfsStores, List.mem_append, ih, List.mem_cons]
      constructor
      · rintro (h | ⟨sn', h1, h2, h3⟩)
        · by_cases hk : keepStore s sn = true
          · rw [if_pos hk] at h
            exact ⟨sn, Or.inl rfl, hk, h⟩
          · rw [if_neg hk] at h
            cases h
        · exact ⟨sn', Or.inr h1, h2, h3⟩
      · rintro ⟨sn', h1 | h1, h2, h3⟩
        · subst h1
          exact Or.inl (by rw [if_pos h2]; exact h3)
        · exact Or.inr ⟨sn', h1, h2, h3⟩

/-- DFS category-level recursion collects exactly the unpruned tree hits. -/
lemma mem_dfsCats {c : Catalog} {s : ConstraintSpec} {id : String}
    {l : List CatNode} :
    id ∈ dfsCats c s l ↔
      ∃ cn ∈ l, keepCat s cn = true ∧
        ∃ sn ∈ cn.stores, keepStore s sn = true ∧
          id ∈ storeCandidates c s sn.ids := by
  induction l with
  | nil => simp [dfsCats]
  | cons cn rest ih =>
      simp only [dfsCats, List.mem_append, ih, List.mem_cons]
      constructor
      · rintro (h | ⟨cn', h1, h2, h3⟩)
        · by_cases hk : keepCat s cn = true
          · rw [if_pos hk] at h
            exact ⟨cn, Or.inl rfl, hk, mem_dfsStores.mp h⟩
          · rw [if_neg hk] at h
            cases h
        · exact ⟨cn', Or.inr h1, h2, h3⟩
      · rintro ⟨cn', h1 | h1, h2, h3⟩
        · subst h1
          exact Or.inl (by rw [if_pos h2]; exact mem_dfsStores.mpr h3)
        · exact Or.inr ⟨cn', h1, h2, h3⟩

/-- Sorting the ids enqueued at a store leaf does not change which survive
the final predicate. -/
lemma mem_storeCandidates_sort {c : Catalog} {s : ConstraintSpec}
    {ids : List String} {id : String} {r : String → String → Prop}
    [DecidableRel r] :
    id ∈ storeCandidates c s (List.insertionSort r ids) ↔
      id ∈ storeCandidates c s ids := by
  simp only [mem_storeCandidates, List.mem_insertionSort]

/-- The priority traversal collects exactly the unpruned tree hits: the
heuristic changes the dequeue order only. -/
lemma mem_priorityCandidates {c : Catalog} {s : ConstraintSpec} {id : String} :
    id ∈ priorityCandidates c s ↔ TreeHit c s id := by
  simp only [priorityCandidates, TreeHit, List.mem_flatMap, List.mem_filter,
    List.mem_insertionSort, mem_storeCandidates_sort]
  tauto

/-- C1: For every Catalog satisfying the unique-id invariant and every
Constraint Spec, each of the four retrieval strategies returns the same set
of candidate item identifiers as the flat scan: strategy choice never changes
which identifiers are returned. -/
theorem C1_strategy_equivalence (c : Catalog) (s : ConstraintSpec)
    (strat : Strategy) (hnd : (c.map Item.id).Nodup) (id : String) :
    id ∈ candidates c s strat ↔ id ∈ candidates c s Strategy.scan := by
  cases strat with
  | scan => exact Iff.rfl
  | bfs => exact (mem_bfsCandidates.trans (treeHit_iff_scan hnd))
  | dfs =>
      show id ∈ dfsCandidates c s ↔ _
      rw [dfsCandidates]
      exact mem_dfsCats.trans
        ((Iff.rfl : TreeHit c s id ↔ TreeHit c s id).symm.trans
          (treeHit_iff_scan hnd))
  | priority => exact (mem_priorityCandidates.trans (treeHit_iff_scan hnd))

/-- Concrete witness for C1: a two-item catalog with distinct ids, a category
filter, the priority strategy. -/
theorem C1_strategy_equivalence_witness :
    (([⟨"a", "A", 18, "home", "s1", 48/10, none, none, []⟩,
       ⟨"b", "B", 35, "home", "s2", 45/10, none, none, []⟩] :
        Catalog).map Item.id).Nodup ∧
    ("a" ∈ candidates
        [⟨"a", "A", 18, "home", "s1", 48/10, none, none, []⟩,
         ⟨"b", "B", 35, "home", "s2", 45/10, none, none, []⟩]
        ⟨none, none, some "home", none, none, SortOrder.rel, Strategy.priority⟩
        Strategy.priority ↔
      "a" ∈ candidates
        [⟨"a", "A", 18, "home", "s1", 48/10, none, none, []⟩,
         ⟨"b", "B", 35, "home", "s2", 45/10, none, none, []⟩]
        ⟨none, none, some "home", none, none, SortOrder.rel, Strategy.priority⟩
        Strategy.scan) :=
  ⟨by decide,
   C1_strategy_equivalence _ _ Strategy.priority (by decide) "a"⟩

/-! ## Constraint Spec construction and validation (modelled from the spec,
§4.1 and §7): a closed set of tagged error variants, rejection at
construction time. -/

/-- Modelled from the spec: the closed validation-error taxonomy. -/
inductive ValidationError where
  | negativePrice
  | minAboveMax
  | ratingOutOfRange
  | unknownSortOrder (name : String)
  | unknownStrategy (name : String)
  deriving DecidableEq

/-- Modelled from the spec: recognize a sort-order name (the wire names used
by the web client: empty string is relevance). -/
def parseSortOrder : String → Option SortOrder
  | "" => some SortOrder.rel
  | "price_asc" => some SortOrder.priceAsc
  | "price_desc" => some SortOrder.priceDesc
  | "rating_asc" => some SortOrder.ratingAsc
  | "rating_desc" => some SortOrder.ratingDesc
  | _ => none

/-- Modelled from the spec: recognize a strategy name (the wire names used by
the web client: linear, bfs, dfs, priority). -/
def parseStrategy : String → Option Strategy
  | "linear" => some Strategy.scan
  | "bfs" => some Strategy.bfs
  | "dfs" => some Strategy.dfs
  | "priority" => some Strategy.priority
  | _ => none

/-- Modelled from the spec: construct a Constraint Spec, rejecting negative
prices, min above max, a minimum rating outside [0,5], and unrecognized
sort-order or strategy names — all at construction time. -/
def mkConstraintSpec (pmin pmax : Option ℚ) (cat : Option String)
    (mr : Option ℚ) (store : Option String) (sortName stratName : String) :
    Except ValidationError ConstraintSpec :=
  if (match pmin with | some a => decide (a < 0) | none => false) ||
     (match pmax with | some b => decide (b < 0) | none => false) then
    Except.error ValidationError.negativePrice
  else if (match pmin, pmax with
           | some a, some b => decide (b < a)
           | _, _ => false) then
    Except.error ValidationError.minAboveMax
  else if (match mr with
           | some r => decide (r < 0) || decide (5 < r)
           | none => false) then
    Except.error ValidationError.ratingOutOfRange
  else
    match parseSortOrder sortName with
    | none => Except.error (ValidationError.unknownSortOrder sortName)
    | some so =>
        match parseStrategy stratName with
        | none => Except.error (ValidationError.unknownStrategy stratName)
        | some st => Except.ok ⟨pmin, pmax, cat, mr, store, so, st⟩

/-- The validity conditions a Constraint Spec is supposed to satisfy. -/
def ConstraintSpec.Valid (s : ConstraintSpec) : Prop :=
  (∀ a ∈ s.priceMin, 0 ≤ a) ∧ (∀ b ∈ s.priceMax, 0 ≤ b) ∧
    (∀ a ∈ s.priceMin, ∀ b ∈ s.priceMax, a ≤ b) ∧
    (∀ r ∈ s.minRating, 0 ≤ r ∧ r ≤ 5)

/-- A raw input that the spec requires the constructor to reject. -/
def RawInvalid (pmin pmax mr : Option ℚ) (sortName stratName : String) :
    Prop :=
  (∃ a ∈ pmin, a < 0) ∨ (∃ b ∈ pmax, b < 0) ∨
    (∃ a ∈ pmin, ∃ b ∈ pmax, b < a) ∨ (∃ r ∈ mr, r < 0 ∨ 5 < r) ∨
    parseSortOrder sortName = none ∨ parseStrategy stratName = none

/-- Everything a successful construction tells us: the guards were all
passed, the names were recognized, the fields are the raw inputs. -/
lemma mkConstraintSpec_ok {pmin pmax mr : Option ℚ} {cat store : Option String}
    {sortName stratName : String} {spec : ConstraintSpec}
    (h : mkConstraintSpec pmin pmax cat mr store sortName stratName =
      Except.ok spec) :
    spec.priceMin = pmin ∧ spec.priceMax = pmax ∧ spec.minRating = mr ∧
      parseSortOrder sortName = some spec.sortOrder ∧
      parseStrategy stratName = some spec.strategy ∧ spec.Valid := by
  unfold mkConstraintSpec at h
  split_ifs at h with h1 h2 h3
  rcases hso : parseSortOrder sortName with _ | so <;> rw [hso] at h
  · cases h
  rcases hst : parseStrategy stratName with _ | st <;> rw [hst] at h
  · cases h
  cases h
  refine ⟨rfl, rfl, rfl, rfl, rfl, ?_, ?_, ?_, ?_⟩
  · intro a ha
    rcases pmin with _ | a0
    · cases ha
    · cases ha
      simp only [Bool.or_eq_true, decide_eq_true_eq] at h1
      by_contra hlt
      exact h1 (Or.inl (by linarith))
  · intro b hb
    rcases pmax with _ | b0
    · cases hb
    · cases hb
      simp only [Bool.or_eq_true, decide_eq_true_eq] at h1
      by_contra hlt
      exact h1 (Or.inr (by linarith))
  · intro a ha b hb
    rcases pmin with _ | a0
    · cases ha
    rcases pmax with _ | b0
    · cases hb
    cases ha
    cases hb
    simp only [decide_eq_true_eq] at h2
    by_contra hlt
    exact h2 (by linarith)
  · intro r hr
    rcases mr with _ | r0
    · cases hr
    cases hr
    simp only [Bool.or_eq_true, decide_eq_true_eq] at h3
    push_neg at h3
    exact ⟨by linarith [h3.1], h3.2⟩

/-- C7: Constructing a Constraint Spec with a negative price, min above max,
a minimum rating outside [0,5], or an unrecognized sort-order or strategy
name fails with a typed validation error at construction time; every
successfully constructed Constraint Spec satisfies all validity conditions,
so the (total) retrieval function never rejects it at use time. -/
theorem C7_construction_validation (pmin pmax mr : Option ℚ)
    (cat store : Option String) (sortName stratName : String) :
    (∀ spec, mkConstraintSpec pmin pmax cat mr store sortName stratName =
        Except.ok spec → spec.Valid) ∧
    (RawInvalid pmin pmax mr sortName stratName →
      ∃ e, mkConstraintSpec pmin pmax cat mr store sortName stratName =
        Except.error e) := by
  constructor
  · intro spec h
    exact (mkConstraintSpec_ok h).2.2.2.2.2
  · intro hbad
    rcases hmk : mkConstraintSpec pmin pmax cat mr store sortName stratName
      with e | spec
    · exact ⟨e, rfl⟩
    rcases mkConstraintSpec_ok hmk with ⟨e1, e2, e3, e4, e5, v1, v2, v3, v4⟩
    exfalso
    rcases hbad with ⟨a, ha, hlt⟩ | ⟨b, hb, hlt⟩ | ⟨a, ha, b, hb, hlt⟩ |
      ⟨r, hr, hout⟩ | hso | hst
    · exact absurd (v1 a (e1 ▸ ha)) (by linarith)
    · exact absurd (v2 b (e2 ▸ hb)) (by linarith)
    · exact absurd (v3 a (e1 ▸ ha) b (e2 ▸ hb)) (by linarith)
    · rcases v4 r (e3 ▸ hr) with ⟨hr0, hr5⟩
      rcases hout with hlt | hgt
      · linarith
      · linarith
    · rw [hso] at e4; cases e4
    · rw [hst] at e5; cases e5

/-- Concrete witness for C7: a negative minimum price is rejected. -/
theorem C7_construction_validation_witness :
    RawInvalid (some (-1)) none none "" "linear" ∧
      ∃ e, mkConstraintSpec (some (-1)) none none none none "" "linear" =
        Except.error e :=
  ⟨Or.inl ⟨-1, rfl, by norm_num⟩,
   (C7_construction_validation (some (-1)) none none none none "" "linear").2
     (Or.inl ⟨-1, rfl, by norm_num⟩)⟩

/-! ## Price boundary inclusiveness -/

/-- C8: the price predicate is inclusive at both bounds — an item priced
exactly at price-min or price-max is matched (and retrieved when it is in
the catalog), an item one cent outside either bound is rejected (and never
collected by the scan). -/
theorem C8_price_boundaries (c : Catalog) (s : ConstraintSpec) (it : Item)
    (a b : ℚ) (hmin : s.priceMin = some a) (hmax : s.priceMax = some b)
    (hab : a ≤ b)
    (hrest : specMatches
      { s with priceMin := none, priceMax := none } it = true) :
    ((it.price = a ∨ it.price = b) →
      specMatches s it = true ∧ (it ∈ c → it.id ∈ scanCandidates c s)) ∧
    ((it.price = a - 1/100 ∨ it.price = b + 1/100) →
      specMatches s it = false ∧
        it ∉ c.filter (fun x => specMatches s x)) := by
  simp only [specMatches, hmin, hmax] at hrest ⊢
  simp only [Bool.and_eq_true] at hrest
  obtain ⟨⟨⟨⟨-, -⟩, hcat⟩, hrat⟩, hst⟩ := hrest
  constructor
  · intro hp
    have hm : (decide (a ≤ it.price) && decide (it.price ≤ b) &&
        (match s.category with
         | some c => strEqCI it.category c
         | none => true) &&
        (match s.minRating with
         | some r => decide (r ≤ it.rating)
         | none => true) &&
        (match s.store with
         | some st => strEqCI it.store st
         | none => true)) = true := by
      rcases hp with hp | hp <;>
        simp [hp, hcat, hrat, hst, hab, le_refl]
    refine ⟨hm, fun hmem => ?_⟩
    refine mem_scanCandidates.mpr ⟨it, hmem, rfl, ?_⟩
    simp only [specMatches, hmin, hmax]
    exact hm
  · intro hp
    have hm : (decide (a ≤ it.price) && decide (it.price ≤ b) &&
        (match s.category with
         | some c => strEqCI it.category c
         | none => true) &&
        (match s.minRating with
         | some r => decide (r ≤ it.rating)
         | none => true) &&
        (match s.store with
         | some st => strEqCI it.store st
         | none => true)) = false := by
      rcases hp with hp | hp
      · have : ¬ (a ≤ it.price) := by rw [hp]; linarith
        simp [this]
      · have : ¬ (it.price ≤ b) := by rw [hp]; linarith
        simp [this]
    refine ⟨hm, fun hmem => ?_⟩
    have := (List.mem_filter.mp hmem).2
    simp only [specMatches, hmin, hmax] at this
    rw [hm] at this
    cases this

/-- Concrete witness for C8: price range [10, 20], an item at exactly 10. -/
theorem C8_price_boundaries_witness :
    ((⟨some 10, some 20, none, none, none, SortOrder.rel,
        Strategy.scan⟩ : ConstraintSpec).priceMin = some 10) ∧
    ((10 : ℚ) ≤ 20) ∧
    (specMatches
      { (⟨some 10, some 20, none, none, none, SortOrder.rel,
          Strategy.scan⟩ : ConstraintSpec) with
          priceMin := none, priceMax := none }
      ⟨"x", "X", 10, "home", "s", 4, none, none, []⟩ = true) ∧
    (((⟨"x", "X", 10, "home", "s", 4, none, none, []⟩ : Item).price = 10 ∨
        (⟨"x", "X", 10, "home", "s", 4, none, none, []⟩ : Item).price = 20) →
      specMatches
        ⟨some 10, some 20, none, none, none, SortOrder.rel, Strategy.scan⟩
        ⟨"x", "X", 10, "home", "s", 4, none, none, []⟩ = true ∧
      ((⟨"x", "X", 10, "home", "s", 4, none, none, []⟩ : Item) ∈
          ([⟨"x", "X", 10, "home", "s", 4, none, none, []⟩] : Catalog) →
        "x" ∈ scanCandidates
          [⟨"x", "X", 10, "home", "s", 4, none, none, []⟩]
          ⟨some 10, some 20, none, none, none, SortOrder.rel,
            Strategy.scan⟩)) :=
  ⟨rfl, by norm_num, by decide,
   (C8_price_boundaries
      [⟨"x", "X", 10, "home", "s", 4, none, none, []⟩]
      ⟨some 10, some 20, none, none, none, SortOrder.rel, Strategy.scan⟩
      ⟨"x", "X", 10, "home", "s", 4, none, none, []⟩ 10 20 rfl rfl
      (by norm_num) (by decide)).1⟩

/-! ## Ranking Quality Metric (modelled from the spec, §4.5): NDCG@k. -/

/-- Modelled from the spec: the discount weight at 0-based position i, i.e.
1 / log2(r + 1) at 1-based rank r = i + 1. -/
noncomputable def discount (i : ℕ) : ℝ := 1 / Real.logb 2 ((i : ℝ) + 2)

/-- Discounted cumulative gain of an ordering against a weight sequence
(the weight argument shifts as the recursion walks down the ranks). -/
noncomputable def dcgAux (w : ℕ → ℝ) : List ℝ → ℝ
  | [] => 0
  | a :: l => a * w 0 + dcgAux (fun i => w (i + 1)) l

/-- Modelled from the spec: the descending re-sort of the truncated scores
used for the ideal discounted gain. -/
noncomputable def sortDesc (l : List ℝ) : List ℝ :=
  List.insertionSort (fun x y => y ≤ x) l

/-- Modelled from the spec: NDCG@k — the discounted gain of the first k
scores divided by the ideal discounted gain of the same k scores re-sorted
descending; 1.0 when the ideal gain is zero (empty input, all-zero scores). -/
noncomputable def ndcg (scores : List ℝ) (k : ℕ) : ℝ :=
  if dcgAux discount (sortDesc (scores.take k)) = 0 then 1
  else dcgAux discount (scores.take k) /
    dcgAux discount (sortDesc (scores.take k))

lemma discount_pos (i : ℕ) : 0 < discount i := by
  have h1 : (1 : ℝ) < (i : ℝ) + 2 := by
    have : (0 : ℝ) ≤ (i : ℝ) := Nat.cast_nonneg i
    linarith
  exact div_pos one_pos (Real.logb_pos (by norm_num) h1)

lemma discount_antitone : Antitone discount := by
  intro i j hij
  have hip : (0 : ℝ) < (i : ℝ) + 2 := by positivity
  have hij' : ((i : ℝ) + 2) ≤ ((j : ℝ) + 2) := by
    have : (i : ℝ) ≤ (j : ℝ) := Nat.cast_le.mpr hij
    linarith
  have h1 : (0 : ℝ) < Real.logb 2 ((i : ℝ) + 2) := by
    apply Real.logb_pos (by norm_num)
    have : (0 : ℝ) ≤ (i : ℝ) := Nat.cast_nonneg i
    linarith
  exact one_div_le_one_div_of_le h1
    (Real.logb_le_logb_of_le (by norm_num) hip hij')

lemma dcgAux_nonneg {w : ℕ → ℝ} {l : List ℝ} (hw : ∀ i, 0 ≤ w i)
    (hl : ∀ x ∈ l, 0 ≤ x) : 0 ≤ dcgAux w l := by
  induction l generalizing w with
  | nil => simp [dcgAux]
  | cons a t ih =>
      have h1 : 0 ≤ a * w 0 :=
        mul_nonneg (hl a (List.mem_cons_self a t)) (hw 0)
      have h2 : 0 ≤ dcgAux (fun i => w (i + 1)) t :=
        ih (fun i => hw (i + 1)) (fun x hx => hl x (List.mem_cons_of_mem a hx))
      simp only [dcgAux]
      linarith

/-- Inserting the head into any tail cannot decrease the discounted gain
when the weights are antitone: the rearrangement step of the NDCG bound. -/
lemma dcgAux_cons_le_orderedInsert (a : ℝ) (m : List ℝ) :
    ∀ w : ℕ → ℝ, Antitone w →
      dcgAux w (a :: m) ≤
        dcgAux w (List.orderedInsert (fun x y => y ≤ x) a m) := by
  induction m with
  | nil => intro w _; simp [List.orderedInsert, le_refl]
  | cons b m' ih =>
      intro w hw
      by_cases hab : b ≤ a
      · rw [List.orderedInsert, if_pos hab]
      · rw [List.orderedInsert, if_neg hab]
        have h1 := ih (fun i => w (i + 1))
          (fun i j hij => hw (by omega))
        have hw01 : w 1 ≤ w 0 := hw (by omega)
        have hba : a ≤ b := le_of_not_le hab
        simp only [dcgAux] at h1 ⊢
        nlinarith [h1]

/-- The descending sort maximizes the discounted gain for antitone weights
(the spec's ideal DCG dominates the DCG of any ordering of the scores). -/
lemma dcgAux_le_sortDesc (l : List ℝ) :
    ∀ w : ℕ → ℝ, Antitone w →
      dcgAux w l ≤ dcgAux w (List.insertionSort (fun x y => y ≤ x) l) := by
  induction l with
  | nil => intro w _; simp [List.insertionSort]
  | cons a t ih =>
      intro w hw
      rw [List.insertionSort]
      have h1 := ih (fun i => w (i + 1)) (fun i j hij => hw (by omega))
      have h2 := dcgAux_cons_le_orderedInsert a
        (List.insertionSort (fun x y => y ≤ x) t) w hw
      simp only [dcgAux] at h1 h2 ⊢
      linarith

/-- Sorting a constant list is the identity (the all-identical-scores edge
case of the metric). -/
lemma insertionSort_of_const {l : List ℝ} {cv : ℝ} (h : ∀ x ∈ l, x = cv) :
    List.insertionSort (fun x y => y ≤ x) l = l := by
  induction l with
  | nil => rfl
  | cons a t ih =>
      rw [List.insertionSort,
        ih (fun x hx => h x (List.mem_cons_of_mem a hx))]
      cases t with
      | nil => rfl
      | cons b t' =>
          have ha : a = cv := h a (by simp)
          have hb : b = cv := h b (by simp)
          rw [List.orderedInsert, if_pos (by simp [ha, hb])]

/-- C2 (amended): NDCG@k of a list of nonnegative scores lies in [0,1]; it
equals exactly 1.0 on the empty list, on any single-element list, and when
all scores in the truncated list are identical; and when k is at least the
candidate count the metric equals the metric over the full count. -/
theorem C2_ndcg_range (scores : List ℝ) (k : ℕ)
    (h : ∀ x ∈ scores, 0 ≤ x) :
    ndcg scores k ∈ Set.Icc (0 : ℝ) 1 ∧
    (∀ k', ndcg ([] : List ℝ) k' = 1) ∧
    (∀ x : ℝ, ∀ k', ndcg [x] k' = 1) ∧
    (∀ l : List ℝ, ∀ k',
      (∀ a ∈ l.take k', ∀ b ∈ l.take k', a = b) → ndcg l k' = 1) ∧
    (∀ l : List ℝ, ∀ k', l.length ≤ k' → ndcg l k' = ndcg l l.length) := by
  refine ⟨?_, ?_, ?_, ?_, ?_⟩
  · have ht : ∀ x ∈ scores.take k, 0 ≤ x :=
      fun x hx => h x (List.take_subset k scores hx)
    have hD : 0 ≤ dcgAux discount (scores.take k) :=
      dcgAux_nonneg (fun i => (discount_pos i).le) ht
    have hI : 0 ≤ dcgAux discount (sortDesc (scores.take k)) := by
      refine dcgAux_nonneg (fun i => (discount_pos i).le) ?_
      intro x hx
      exact ht x ((List.mem_insertionSort _).mp hx)
    have hDI : dcgAux discount (scores.take k) ≤
        dcgAux discount (sortDesc (scores.take k)) :=
      dcgAux_le_sortDesc (scores.take k) discount discount_antitone
    rw [ndcg]
    split_ifs with h0
    · exact ⟨by norm_num, by norm_num⟩
    · have hIpos : 0 < dcgAux discount (sortDesc (scores.take k)) :=
        lt_of_le_of_ne hI (Ne.symm h0)
      exact ⟨div_nonneg hD hI, (div_le_one hIpos).mpr hDI⟩
  · intro k'
    simp [ndcg, sortDesc, List.insertionSort, dcgAux]
  · intro x k'
    cases k' with
    | zero => simp [ndcg, sortDesc, List.insertionSort, dcgAux]
    | succ n =>
        have hd0 : discount 0 = 1 := by norm_num [discount]
        simp only [ndcg, List.take_succ_cons, List.take_nil, sortDesc,
          List.insertionSort, List.orderedInsert, dcgAux, hd0, mul_one,
          add_zero]
        split_ifs with h0
        · rfl
        · exact div_self h0
  · intro l k' hid
    have hsort : sortDesc (l.take k') = l.take k' := by
      cases hc : l.take k' with
      | nil => rfl
      | cons a t =>
          exact insertionSort_of_const
            (fun x hx => hid x (hc ▸ hx) a (hc ▸ List.mem_cons_self a t))
    rw [ndcg, hsort]
    split_ifs with h0
    · rfl
    · exact div_self h0
  · intro l k' hk
    rw [ndcg, ndcg, List.take_of_length_le hk, List.take_length]

/-- Concrete witness for C2 (amended): two equal nonnegative scores. -/
theorem C2_ndcg_range_witness :
    (∀ x ∈ [(1 : ℝ) / 2, 1 / 2], 0 ≤ x) ∧
    (ndcg [(1 : ℝ) / 2, 1 / 2] 2 ∈ Set.Icc (0 : ℝ) 1 ∧
     (∀ k', ndcg ([] : List ℝ) k' = 1) ∧
     (∀ x : ℝ, ∀ k', ndcg [x] k' = 1) ∧
     (∀ l : List ℝ, ∀ k',
       (∀ a ∈ l.take k', ∀ b ∈ l.take k', a = b) → ndcg l k' = 1) ∧
     (∀ l : List ℝ, ∀ k', l.length ≤ k' → ndcg l k' = ndcg l l.length)) :=
  ⟨by norm_num, C2_ndcg_range [(1 : ℝ) / 2, 1 / 2] 2 (by norm_num)⟩

/-- C2 as literally stated is false: NDCG@k is not confined to [0,1] for
every list of real scores — a list containing a negative score can push it
above 1 (here NDCG of [-1, 0] at k = 2 equals log2 3 > 1). -/
theorem C2_counterexample : ndcg [(-1 : ℝ), 0] 2 ∉ Set.Icc (0 : ℝ) 1 := by
  have hl3 : (1 : ℝ) < Real.logb 2 3 := by
    rw [Real.logb, lt_div_iff₀ (Real.log_pos (by norm_num))]
    rw [one_mul]
    exact Real.log_lt_log (by norm_num) (by norm_num)
  have hd0 : discount 0 = 1 := by norm_num [discount]
  have hd1 : discount 1 = 1 / Real.logb 2 3 := by norm_num [discount]
  have hsort : sortDesc [(-1 : ℝ), 0] = [0, -1] := by
    simp only [sortDesc, List.insertionSort, List.orderedInsert]
    rw [if_neg (by norm_num)]
  have hval : ndcg [(-1 : ℝ), 0] 2 = Real.logb 2 3 := by
    have htake : ([(-1 : ℝ), 0].take 2) = [(-1 : ℝ), 0] := rfl
    rw [ndcg, htake, hsort]
    simp only [dcgAux, hd0, hd1]
    have hpos : (0 : ℝ) < 1 / Real.logb 2 3 :=
      div_pos one_pos (by linarith)
    rw [if_neg (by intro hc; nlinarith)]
    have hne : Real.logb 2 3 ≠ 0 := by linarith
    field_simp
  rw [hval]
  intro hmem
  exact absurd hmem.2 (not_le.mpr hl3)

/-! ## Feature Scorer (modelled from the spec, §4.4). -/

/-- Modelled from the spec: the Scoring Configuration — five weights. -/
structure ScoringConfig where
  wPrice : ℝ
  wRating : ℝ
  wPop : ℝ
  wCat : ℝ
  wRich : ℝ

/-- Total weight, the normalization denominator. -/
def ScoringConfig.total (c : ScoringConfig) : ℝ :=
  c.wPrice + c.wRating + c.wPop + c.wCat + c.wRich

/-- Modelled from the spec: a Scoring Configuration is valid when every
weight is nonnegative and not all are zero (positive total). -/
def ScoringConfig.Valid (c : ScoringConfig) : Prop :=
  0 ≤ c.wPrice ∧ 0 ≤ c.wRating ∧ 0 ≤ c.wPop ∧ 0 ≤ c.wCat ∧ 0 ≤ c.wRich ∧
    0 < c.total

/-- The per-call normalization context: ranges derived from the current
candidate set (not global catalog ranges), plus the target category. -/
structure ScoreCtx where
  minPrice : ℚ
  maxPrice : ℚ
  minPop : ℕ
  maxPop : ℕ
  maxRich : ℕ
  target : Option String

/-- Raw popularity of an item: its rating count, 0 when absent. -/
def popularity (it : Item) : ℕ := it.ratingCount.getD 0

/-- Raw richness of an item: description length plus feature-bullet count. -/
def richness (it : Item) : ℕ :=
  (it.description.getD "").length + it.featureBullets.length

/-- Modelled from the spec: inverted linear price normalization — cheaper
scores higher, constant 1.0 when all candidates share one price. -/
noncomputable def priceScore (ctx : ScoreCtx) (it : Item) : ℝ :=
  if ctx.maxPrice == ctx.minPrice then 1
  else 1 - (((it.price : ℝ) - (ctx.minPrice : ℝ)) /
    ((ctx.maxPrice : ℝ) - (ctx.minPrice : ℝ)))

/-- Modelled from the spec: seller rating divided by 5. -/
noncomputable def ratingScore (it : Item) : ℝ := (it.rating : ℝ) / 5

/-- Modelled from the spec: natural-log-scaled rating count, min-max
normalized over the candidate set; constant 1.0 on a degenerate range. -/
noncomputable def popScore (ctx : ScoreCtx) (it : Item) : ℝ :=
  if ctx.maxPop == ctx.minPop then 1
  else (Real.log (1 + (popularity it : ℝ)) -
      Real.log (1 + (ctx.minPop : ℝ))) /
    (Real.log (1 + (ctx.maxPop : ℝ)) - Real.log (1 + (ctx.minPop : ℝ)))

/-- Modelled from the spec: 1.0 on a category match, 0.5 when no target
category was specified, 0.0 otherwise. -/
noncomputable def catScore (ctx : ScoreCtx) (it : Item) : ℝ :=
  match ctx.target with
  | none => 0.5
  | some t => if strEqCI it.category t then 1 else 0

/-- Modelled from the spec: description length and bullet count combined,
normalized against the candidate set's maximum. -/
noncomputable def richScore (ctx : ScoreCtx) (it : Item) : ℝ :=
  if ctx.maxRich == 0 then 0 else (richness it : ℝ) / (ctx.maxRich : ℝ)

/-- Modelled from the spec: the final score — weighted sum of the five
features under the normalized weights. -/
noncomputable def finalScore (cfg : ScoringConfig) (ctx : ScoreCtx)
    (it : Item) : ℝ :=
  (cfg.wPrice / cfg.total) * priceScore ctx it +
    (cfg.wRating / cfg.total) * ratingScore it +
    (cfg.wPop / cfg.total) * popScore ctx it +
    (cfg.wCat / cfg.total) * catScore ctx it +
    (cfg.wRich / cfg.total) * richScore ctx it

/-- C4: for every product and every valid Scoring Configuration, when each
of the five normalized features lies in [0,1] the final weighted score lies
in [0,1]. -/
theorem C4_score_range (cfg : ScoringConfig) (ctx : ScoreCtx) (it : Item)
    (hv : cfg.Valid)
    (h1 : priceScore ctx it ∈ Set.Icc (0 : ℝ) 1)
    (h2 : ratingScore it ∈ Set.Icc (0 : ℝ) 1)
    (h3 : popScore ctx it ∈ Set.Icc (0 : ℝ) 1)
    (h4 : catScore ctx it ∈ Set.Icc (0 : ℝ) 1)
    (h5 : richScore ctx it ∈ Set.Icc (0 : ℝ) 1) :
    finalScore cfg ctx it ∈ Set.Icc (0 : ℝ) 1 := by
  obtain ⟨hw1, hw2, hw3, hw4, hw5, hS⟩ := hv
  obtain ⟨h1a, h1b⟩ := h1
  obtain ⟨h2a, h2b⟩ := h2
  obtain ⟨h3a, h3b⟩ := h3
  obtain ⟨h4a, h4b⟩ := h4
  obtain ⟨h5a, h5b⟩ := h5
  have hfs : finalScore cfg ctx it =
      (cfg.wPrice * priceScore ctx it + cfg.wRating * ratingScore it +
        cfg.wPop * popScore ctx it + cfg.wCat * catScore ctx it +
        cfg.wRich * richScore ctx it) / cfg.total := by
    rw [finalScore]
    ring
  constructor
  · rw [hfs]
    apply div_nonneg _ hS.le
    have := mul_nonneg hw1 h1a
    have := mul_nonneg hw2 h2a
    have := mul_nonneg hw3 h3a
    have := mul_nonneg hw4 h4a
    have := mul_nonneg hw5 h5a
    linarith
  · rw [hfs, div_le_one hS]
    have e1 : cfg.wPrice * priceScore ctx it ≤ cfg.wPrice := by nlinarith
    have e2 : cfg.wRating * ratingScore it ≤ cfg.wRating := by nlinarith
    have e3 : cfg.wPop * popScore ctx it ≤ cfg.wPop := by nlinarith
    have e4 : cfg.wCat * catScore ctx it ≤ cfg.wCat := by nlinarith
    have e5 : cfg.wRich * richScore ctx it ≤ cfg.wRich := by nlinarith
    rw [ScoringConfig.total]
    linarith

/-- Concrete witness for C4: unit weights, a degenerate candidate range. -/
theorem C4_score_range_witness :
    (ScoringConfig.Valid ⟨1, 1, 1, 1, 1⟩ ∧
      priceScore ⟨10, 10, 0, 0, 0, none⟩
        ⟨"x", "X", 10, "home", "s", 5, none, none, []⟩ ∈ Set.Icc (0 : ℝ) 1 ∧
      ratingScore ⟨"x", "X", 10, "home", "s", 5, none, none, []⟩ ∈
        Set.Icc (0 : ℝ) 1 ∧
      popScore ⟨10, 10, 0, 0, 0, none⟩
        ⟨"x", "X", 10, "home", "s", 5, none, none, []⟩ ∈ Set.Icc (0 : ℝ) 1 ∧
      catScore ⟨10, 10, 0, 0, 0, none⟩
        ⟨"x", "X", 10, "home", "s", 5, none, none, []⟩ ∈ Set.Icc (0 : ℝ) 1 ∧
      richScore ⟨10, 10, 0, 0, 0, none⟩
        ⟨"x", "X", 10, "home", "s", 5, none, none, []⟩ ∈ Set.Icc (0 : ℝ) 1) ∧
    finalScore ⟨1, 1, 1, 1, 1⟩ ⟨10, 10, 0, 0, 0, none⟩
      ⟨"x", "X", 10, "home", "s", 5, none, none, []⟩ ∈ Set.Icc (0 : ℝ) 1 := by
  have hv : ScoringConfig.Valid ⟨1, 1, 1, 1, 1⟩ := by
    refine ⟨by norm_num, by norm_num, by norm_num, by norm_num, by norm_num, ?_⟩
    norm_num [ScoringConfig.total]
  have hp : priceScore ⟨10, 10, 0, 0, 0, none⟩
      ⟨"x", "X", 10, "home", "s", 5, none, none, []⟩ ∈ Set.Icc (0 : ℝ) 1 := by
    norm_num [priceScore]
  have hr : ratingScore ⟨"x", "X", 10, "home", "s", 5, none, none, []⟩ ∈
      Set.Icc (0 : ℝ) 1 := by
    norm_num [ratingScore]
  have hpop : popScore ⟨10, 10, 0, 0, 0, none⟩
      ⟨"x", "X", 10, "home", "s", 5, none, none, []⟩ ∈ Set.Icc (0 : ℝ) 1 := by
    norm_num [popScore]
  have hc : catScore ⟨10, 10, 0, 0, 0, none⟩
      ⟨"x", "X", 10, "home", "s", 5, none, none, []⟩ ∈ Set.Icc (0 : ℝ) 1 := by
    norm_num [catScore]
  have hrich : richScore ⟨10, 10, 0, 0, 0, none⟩
      ⟨"x", "X", 10, "home", "s", 5, none, none, []⟩ ∈ Set.Icc (0 : ℝ) 1 := by
    norm_num [richScore]
  exact ⟨⟨hv, hp, hr, hpop, hc, hrich⟩,
    C4_score_range _ _ _ hv hp hr hpop hc hrich⟩

/-! ## Re-rank Optimizer (modelled from the spec, §4.6): baseline sort,
steepest-ascent hill climbing, simulated annealing, and the shared rank
orchestration pipeline. -/

/-- Modelled from the spec: the objective — NDCG@k of the scores of the
current ordering of scored candidates. -/
noncomputable def objective (k : ℕ) (l : List (String × ℝ)) : ℝ :=
  ndcg (l.map Prod.snd) k

/-- Swap the adjacent pair at positions j and j+1 (identity when j+1 is out
of range). -/
def swapAdjacent {α : Type} : ℕ → List α → List α
  | 0, a :: b :: l => b :: a :: l
  | j + 1, a :: l => a :: swapAdjacent j l
  | _, l => l

/-- Modelled from the spec: one steepest-ascent round — evaluate every
adjacent-pair swap of the current ordering and apply the single best
improving swap found, if any. -/
noncomputable def hillClimbRound (k : ℕ) (l : List (String × ℝ)) :
    List (String × ℝ) :=
  (List.range (l.length - 1)).foldl
    (fun acc j =>
      if objective k acc < objective k (swapAdjacent j l) then
        swapAdjacent j l
      else acc) l

/-- The argmax fold of a hill-climbing round never decreases the objective
of its accumulator. -/
lemma objective_le_foldl (k : ℕ) (l : List (String × ℝ)) (js : List ℕ)
    (init : List (String × ℝ)) :
    objective k init ≤ objective k (js.foldl
      (fun acc j =>
        if objective k acc < objective k (swapAdjacent j l) then
          swapAdjacent j l
        else acc) init) := by
  induction js generalizing init with
  | nil => exact le_refl _
  | cons j rest ih =>
      simp only [List.foldl]
      refine le_trans ?_ (ih _)
      split_ifs with hlt
      · exact hlt.le
      · exact le_refl _

/-- One hill-climbing round never decreases the objective. -/
lemma objective_hillClimbRound (k : ℕ) (l : List (String × ℝ)) :
    objective k l ≤ objective k (hillClimbRound k l) :=
  objective_le_foldl k l (List.range (l.length - 1)) l

/-- C3: across successive steepest-ascent rounds from any starting ordering
the objective value (NDCG@k of the current ordering) is non-decreasing; in
particular each round's value is at least the previous round's. -/
theorem C3_hill_climbing_monotone (k : ℕ) (l : List (String × ℝ))
    (m n : ℕ) (h : m ≤ n) :
    objective k ((hillClimbRound k)^[m] l) ≤
      objective k ((hillClimbRound k)^[n] l) := by
  induction n with
  | zero =>
      cases Nat.le_zero.mp h
      exact le_refl _
  | succ n' ih =>
      rcases Nat.lt_or_ge m (n' + 1) with hlt | hge
      · refine le_trans (ih (Nat.lt_succ_iff.mp hlt)) ?_
        rw [Function.iterate_succ_apply']
        exact objective_hillClimbRound k _
      · cases Nat.le_antisymm h hge
        exact le_refl _

/-- Concrete witness for C3: two scored candidates, rounds 0 and 1. -/
theorem C3_hill_climbing_monotone_witness :
    0 ≤ 1 ∧
    objective 2 ((hillClimbRound 2)^[0] [("a", (0 : ℝ)), ("b", 1)]) ≤
      objective 2 ((hillClimbRound 2)^[1] [("a", (0 : ℝ)), ("b", 1)]) :=
  ⟨by norm_num,
   C3_hill_climbing_monotone 2 [("a", (0 : ℝ)), ("b", 1)] 0 1 (by norm_num)⟩

/-- Modelled from the spec: an explicit, seedable random source — a linear
congruential generator over ℕ, threaded by value through the annealing
loop (design note §9: no global or shared mutable random state). -/
def rngNext (s : ℕ) : ℕ × ℕ :=
  let s' := (1103515245 * s + 12345) % 2147483648
  (s', s')

/-- A uniform draw in [0, 1) from the generator. -/
noncomputable def rngUniform (s : ℕ) : ℝ × ℕ :=
  let p := rngNext s
  ((p.1 : ℝ) / 2147483648, p.2)

/-- Modelled from the spec: the simulated-annealing loop — geometric
cooling, one random adjacent swap per iteration, improving swaps always
accepted, worsening swaps accepted with probability exp(−Δ/temperature),
and the best ordering seen anywhere is tracked and returned. -/
noncomputable def saLoop (k : ℕ) (cooling : ℝ) :
    ℕ → ℝ → ℕ → List (String × ℝ) → List (String × ℝ) → List (String × ℝ)
  | 0, _, _, _, best => best
  | it + 1, temp, rng, cur, best =>
      let p1 := rngNext rng
      let cand := swapAdjacent (p1.1 % (cur.length - 1)) cur
      let dNew := objective k cand
      let dCur := objective k cur
      let p2 := rngUniform p1.2
      let cur' :=
        if dCur ≤ dNew ∨ p2.1 < Real.exp (-(dCur - dNew) / temp) then cand
        else cur
      let best' := if objective k best < objective k cur' then cur' else best
      saLoop k cooling it (temp * cooling) p2.2 cur' best'

/-- Modelled from the spec: simulated annealing from an explicit seed —
returns the best ordering observed and the iteration count consumed. -/
noncomputable def simulatedAnnealing (k maxIter : ℕ) (t0 cooling : ℝ)
    (seed : ℕ) (l : List (String × ℝ)) : List (String × ℝ) × ℕ :=
  (saLoop k cooling maxIter t0 seed l l, maxIter)

/-- Modelled from the spec: bounded steepest-ascent loop — stop when a
round leaves the ordering unchanged (no improving swap) or the round budget
is exhausted; returns the ordering and the number of improving rounds. -/
noncomputable def hillClimbLoop (k : ℕ) :
    ℕ → List (String × ℝ) → List (String × ℝ) × ℕ
  | 0, l => (l, 0)
  | fuel + 1, l =>
      let l' := hillClimbRound k l
      if l' = l then (l, 0)
      else
        let r := hillClimbLoop k fuel l'
        (r.1, r.2 + 1)

/-- Modelled from the spec: the re-ranking strategies of the orchestrator. -/
inductive RankStrategy where
  | baseline
  | hillClimbing
  | simAnnealing
  deriving DecidableEq

/-- Modelled from the spec: the immutable Ranked Outcome value record. -/
structure RankedOutcome where
  ranked : List (String × ℝ)
  strategy : RankStrategy
  iterations : ℕ
  objectiveValue : ℝ

/-- Modelled from the spec: resolve candidate ids to item records, silently
skipping ids with no matching catalog entry. -/
def resolveItems (c : Catalog) (ids : List String) : List Item :=
  ids.filterMap (fun id => lookup c id)

/-- Normalization ranges derived from the resolved candidate set. -/
def mkCtx (items : List Item) (target : Option String) : ScoreCtx :=
  { minPrice := match items.map Item.price with
      | [] => 0
      | a :: t => t.foldl min a
    maxPrice := match items.map Item.price with
      | [] => 0
      | a :: t => t.foldl max a
    minPop := match items.map popularity with
      | [] => 0
      | a :: t => t.foldl min a
    maxPop := match items.map popularity with
      | [] => 0
      | a :: t => t.foldl max a
    maxRich := match items.map richness with
      | [] => 0
      | a :: t => t.foldl max a
    target := target }

/-- Modelled from the spec: the shared Rank orchestration — resolve ids
(skipping lookup gaps), neutral outcome on an empty resolved set or a zero
result budget, otherwise score, sort descending, optionally optimize,
truncate, and wrap with iteration count and objective value. -/
noncomputable def rank (ids : List String) (c : Catalog)
    (cfg : ScoringConfig) (strat : RankStrategy) (target : Option String)
    (k : ℕ) (seed : ℕ) (maxResults : Option ℕ) : RankedOutcome :=
  let items := resolveItems c ids
  if items.isEmpty || maxResults == some 0 then
    { ranked := [], strategy := strat, iterations := 0, objectiveValue := 1 }
  else
    let ctx := mkCtx items target
    let scored := items.map (fun it => (it.id, finalScore cfg ctx it))
    let base := List.insertionSort (fun x y : String × ℝ => y.2 ≤ x.2) scored
    let result :=
      match strat with
      | .baseline => (base, 0)
      | .hillClimbing => hillClimbLoop k 50 base
      | .simAnnealing => simulatedAnnealing k 200 1 (95 / 100) seed base
    { ranked := match maxResults with
        | some m => result.1.take m
        | none => result.1
      strategy := strat
      iterations := result.2
      objectiveValue := objective k result.1 }

/-- C5: simulated-annealing ranking is deterministic in the seed — two Rank
calls with equal seeds and otherwise identical inputs produce identical
Ranked Outcomes (the random source is an explicit per-call value). -/
theorem C5_sa_determinism (ids : List String) (c : Catalog)
    (cfg : ScoringConfig) (target : Option String) (k : ℕ)
    (maxResults : Option ℕ) (s1 s2 : ℕ) (h : s1 = s2) :
    rank ids c cfg RankStrategy.simAnnealing target k s1 maxResults =
      rank ids c cfg RankStrategy.simAnnealing target k s2 maxResults := by
  rw [h]

/-- Concrete witness for C5: equal seeds on a two-item catalog. -/
theorem C5_sa_determinism_witness :
    (42 = 42) ∧
    rank ["a", "b"]
      [⟨"a", "A", 18, "home", "s1", 4, none, none, []⟩,
       ⟨"b", "B", 35, "home", "s2", 5, none, none, []⟩]
      ⟨1, 1, 1, 1, 1⟩ RankStrategy.simAnnealing (some "home") 2 42 none =
    rank ["a", "b"]
      [⟨"a", "A", 18, "home", "s1", 4, none, none, []⟩,
       ⟨"b", "B", 35, "home", "s2", 5, none, none, []⟩]
      ⟨1, 1, 1, 1, 1⟩ RankStrategy.simAnnealing (some "home") 2 42 none :=
  ⟨rfl,
   C5_sa_determinism ["a", "b"]
     [⟨"a", "A", 18, "home", "s1", 4, none, none, []⟩,
      ⟨"b", "B", 35, "home", "s2", 5, none, none, []⟩]
     ⟨1, 1, 1, 1, 1⟩ (some "home") 2 none 42 42 rfl⟩

/-- C6: a Rank call whose resolved candidate set is empty — empty id list,
ids all absent from the catalog, or a zero result budget — returns the
neutral Ranked Outcome (empty ordering, objective value 1.0, zero
iterations) without invoking any optimizer; `rank` is total, so no error
is raised. -/
theorem C6_empty_resolution (ids : List String) (c : Catalog)
    (cfg : ScoringConfig) (strat : RankStrategy) (target : Option String)
    (k seed : ℕ) (maxResults : Option ℕ)
    (h : ids = [] ∨ (∀ id ∈ ids, lookup c id = none) ∨
      maxResults = some 0) :
    rank ids c cfg strat target k seed maxResults =
      { ranked := [], strategy := strat, iterations := 0,
        objectiveValue := 1 } := by
  have hguard :
      ((resolveItems c ids).isEmpty || maxResults == some 0) = true := by
    rcases h with h | h | h
    · subst h
      simp [resolveItems]
    · apply Bool.or_eq_true_iff.mpr
      left
      rw [List.isEmpty_iff]
      exact List.filterMap_eq_nil_iff.mpr h
    · subst h
      simp
  rw [rank]
  simp only [hguard]
  rfl

/-- Concrete witness for C6: one id, an empty catalog. -/
theorem C6_empty_resolution_witness :
    ((["x"] : List String) = [] ∨
      (∀ id ∈ (["x"] : List String), lookup ([] : Catalog) id = none) ∨
      (none : Option ℕ) = some 0) ∧
    rank ["x"] ([] : Catalog) ⟨1, 1, 1, 1, 1⟩ RankStrategy.baseline none
        5 0 none =
      { ranked := [], strategy := RankStrategy.baseline, iterations := 0,
        objectiveValue := 1 } :=
  ⟨Or.inr (Or.inl (fun _ _ => rfl)),
   C6_empty_resolution ["x"] [] ⟨1, 1, 1, 1, 1⟩ RankStrategy.baseline none
     5 0 none (Or.inr (Or.inl (fun _ _ => rfl)))⟩

/-! ## Frontend helpers, translated directly from the repository source. -/

/-- An entry of the pagination bar: a page number or an ellipsis
(src/unnamed/part_001, `pageRange`). -/
inductive PageEntry where
  | num (n : ℤ)
  | dots
  deriving DecidableEq

/-- From src/unnamed/part_001: the `addUnique` closure — append a page
number if it is within [1, total] and not already present. -/
def addUnique (total : ℤ) (pages : List PageEntry) (n : ℤ) :
    List PageEntry :=
  if 1 ≤ n ∧ n ≤ total ∧ PageEntry.num n ∉ pages then
    pages ++ [PageEntry.num n]
  else pages

/-- Conditionally append an ellipsis entry. -/
def pushDotsIf (c : Prop) [Decidable c] (p : List PageEntry) :
    List PageEntry :=
  if c then p ++ [PageEntry.dots] else p

/-- From src/unnamed/part_001: the else-branch of `pageRange` — 1, an
ellipsis when current > 3, the window current−1..current+1, an ellipsis
when current < total − 2, then total, all deduplicated and clamped. -/
def pageRangeLarge (current total : ℤ) : List PageEntry :=
  addUnique total
    (pushDotsIf (current < total - 2)
      (addUnique total
        (addUnique total
          (addUnique total
            (pushDotsIf (3 < current) (addUnique total [] 1))
            (current - 1))
          current)
        (current + 1)))
    total

/-- From src/unnamed/part_001: the then-branch of `pageRange` — the list
[1, 2, …, total] (empty when total is not positive, as Array.from with a
negative length yields an empty array). -/
def pageRangeSmall (total : ℤ) : List PageEntry :=
  (List.range total.toNat).map (fun i : ℕ => PageEntry.num ((i : ℤ) + 1))

/-- From src/unnamed/part_001: `pageRange(current, total)` — the compact
page-number list with ellipses; `[1, ..., total]` when total ≤ 7. -/
def pageRange (current total : ℤ) : List PageEntry :=
  if total ≤ 7 then pageRangeSmall total
  else pageRangeLarge current total

lemma mem_pageRangeSmall {total j : ℤ} :
    PageEntry.num j ∈ pageRangeSmall total ↔ 1 ≤ j ∧ j ≤ total := by
  simp only [pageRangeSmall, List.mem_map, List.mem_range,
    PageEntry.num.injEq]
  constructor
  · rintro ⟨i, hi, hij⟩
    omega
  · rintro ⟨hj1, hj2⟩
    exact ⟨(j - 1).toNat, by omega, by omega⟩

lemma nodup_pageRangeSmall (total : ℤ) : (pageRangeSmall total).Nodup := by
  refine List.Nodup.map ?_ (List.nodup_range _)
  intro a b hab
  simp only [PageEntry.num.injEq] at hab
  omega

lemma dots_not_mem_pageRangeSmall (total : ℤ) :
    PageEntry.dots ∉ pageRangeSmall total := by
  simp only [pageRangeSmall, List.mem_map]
  rintro ⟨i, -, hi⟩
  cases hi

lemma mem_addUnique_of_mem {total : ℤ} {p : List PageEntry} {m : ℤ}
    {x : PageEntry} (hx : x ∈ p) : x ∈ addUnique total p m := by
  rw [addUnique]
  split_ifs with h
  · exact List.mem_append_left _ hx
  · exact hx

lemma mem_addUnique_self {total m : ℤ} {p : List PageEntry}
    (h1 : 1 ≤ m) (h2 : m ≤ total) : PageEntry.num m ∈ addUnique total p m := by
  rw [addUnique]
  split_ifs with h
  · exact List.mem_append_right _ (by simp)
  · push_neg at h
    exact h h1 h2

lemma count_addUnique_le {total : ℤ} {p : List PageEntry} {m : ℤ}
    (h : ∀ j : ℤ, p.count (PageEntry.num j) ≤ 1) :
    ∀ j : ℤ, (addUnique total p m).count (PageEntry.num j) ≤ 1 := by
  intro j
  rw [addUnique]
  split_ifs with hc
  · rw [List.count_append]
    by_cases hj : j = m
    · subst hj
      have h0 : p.count (PageEntry.num j) = 0 :=
        List.count_eq_zero.mpr hc.2.2
      simp [h0]
    · have h0 : List.count (PageEntry.num j) [PageEntry.num m] = 0 := by
        apply List.count_eq_zero.mpr
        simp only [List.mem_singleton, PageEntry.num.injEq]
        omega
      rw [h0]
      simpa using h j
  · exact h j

lemma mem_addUnique_range {total : ℤ} {p : List PageEntry} {m : ℤ}
    (h : ∀ j : ℤ, PageEntry.num j ∈ p → 1 ≤ j ∧ j ≤ total) :
    ∀ j : ℤ, PageEntry.num j ∈ addUnique total p m → 1 ≤ j ∧ j ≤ total := by
  intro j hj
  rw [addUnique] at hj
  split_ifs at hj with hc
  · rcases List.mem_append.mp hj with hj | hj
    · exact h j hj
    · have : j = m := by
        have := List.mem_singleton.mp hj
        injection this
      subst this
      exact ⟨hc.1, hc.2.1⟩
  · exact h j hj

lemma count_pushDotsIf {c : Prop} [Decidable c] {p : List PageEntry}
    (j : ℤ) :
    (pushDotsIf c p).count (PageEntry.num j) = p.count (PageEntry.num j) := by
  rw [pushDotsIf]
  split_ifs with hc
  · rw [List.count_append]
    simp [List.count_singleton]
  · rfl

lemma mem_pushDotsIf {c : Prop} [Decidable c] {p : List PageEntry} {j : ℤ} :
    PageEntry.num j ∈ pushDotsIf c p ↔ PageEntry.num j ∈ p := by
  rw [pushDotsIf]
  split_ifs with hc
  · simp
  · exact Iff.rfl

lemma count_le_one_pushDotsIf {c : Prop} [Decidable c] {p : List PageEntry}
    (h : ∀ j : ℤ, p.count (PageEntry.num j) ≤ 1) :
    ∀ j : ℤ, (pushDotsIf c p).count (PageEntry.num j) ≤ 1 := by
  intro j
  rw [count_pushDotsIf]
  exact h j

lemma range_pushDotsIf {c : Prop} [Decidable c] {total : ℤ}
    {p : List PageEntry}
    (h : ∀ j : ℤ, PageEntry.num j ∈ p → 1 ≤ j ∧ j ≤ total) :
    ∀ j : ℤ, PageEntry.num j ∈ pushDotsIf c p → 1 ≤ j ∧ j ≤ total := by
  intro j hj
  exact h j (mem_pushDotsIf.mp hj)

/-- C9: for 1 ≤ current ≤ total, pageRange contains the page numbers 1,
current and total exactly once each, every numeric entry lies in
[1, total], and for total ≤ 7 the result is exactly [1, …, total] with no
ellipsis entries. -/
theorem C9_pageRange_properties (current total : ℤ)
    (hc1 : 1 ≤ current) (hc2 : current ≤ total) :
    ((pageRange current total).count (PageEntry.num 1) = 1 ∧
     (pageRange current total).count (PageEntry.num current) = 1 ∧
     (pageRange current total).count (PageEntry.num total) = 1) ∧
    (∀ n : ℤ, PageEntry.num n ∈ pageRange current total →
      1 ≤ n ∧ n ≤ total) ∧
    (total ≤ 7 →
      pageRange current total =
        (List.range total.toNat).map
          (fun i : ℕ => PageEntry.num ((i : ℤ) + 1)) ∧
      PageEntry.dots ∉ pageRange current total) := by
  by_cases h7 : total ≤ 7
  · rw [pageRange, if_pos h7]
    have hnd := nodup_pageRangeSmall total
    refine ⟨⟨?_, ?_, ?_⟩, fun n hn => mem_pageRangeSmall.mp hn,
      fun _ => ⟨rfl, dots_not_mem_pageRangeSmall total⟩⟩
    · exact List.count_eq_one_of_mem hnd
        (mem_pageRangeSmall.mpr ⟨le_refl 1, by omega⟩)
    · exact List.count_eq_one_of_mem hnd
        (mem_pageRangeSmall.mpr ⟨hc1, hc2⟩)
    · exact List.count_eq_one_of_mem hnd
        (mem_pageRangeSmall.mpr ⟨by omega, le_refl total⟩)
  · have h8 : (8 : ℤ) ≤ total := by omega
    have hres : pageRange current total = pageRangeLarge current total := by
      rw [pageRange, if_neg h7]
    rw [hres, pageRangeLarge]
    set p1 := addUnique total [] 1 with hp1def
    set p2 := pushDotsIf (3 < current) p1 with hp2def
    set p3 := addUnique total p2 (current - 1) with hp3def
    set p4 := addUnique total p3 current with hp4def
    set p5 := addUnique total p4 (current + 1) with hp5def
    set p6 := pushDotsIf (current < total - 2) p5 with hp6def
    have hcnt1 : ∀ j : ℤ, p1.count (PageEntry.num j) ≤ 1 :=
      count_addUnique_le (by intro j; simp)
    have hcnt2 : ∀ j : ℤ, p2.count (PageEntry.num j) ≤ 1 :=
      count_le_one_pushDotsIf hcnt1
    have hcnt3 : ∀ j : ℤ, p3.count (PageEntry.num j) ≤ 1 :=
      count_addUnique_le hcnt2
    have hcnt4 : ∀ j : ℤ, p4.count (PageEntry.num j) ≤ 1 :=
      count_addUnique_le hcnt3
    have hcnt5 : ∀ j : ℤ, p5.count (PageEntry.num j) ≤ 1 :=
      count_addUnique_le hcnt4
    have hcnt6 : ∀ j : ℤ, p6.count (PageEntry.num j) ≤ 1 :=
      count_le_one_pushDotsIf hcnt5
    have hcnt7 : ∀ j : ℤ,
        (addUnique total p6 total).count (PageEntry.num j) ≤ 1 :=
      count_addUnique_le hcnt6
    have hrng1 : ∀ j : ℤ, PageEntry.num j ∈ p1 → 1 ≤ j ∧ j ≤ total :=
      mem_addUnique_range (by intro j hj; cases hj)
    have hrng2 : ∀ j : ℤ, PageEntry.num j ∈ p2 → 1 ≤ j ∧ j ≤ total :=
      range_pushDotsIf hrng1
    have hrng3 : ∀ j : ℤ, PageEntry.num j ∈ p3 → 1 ≤ j ∧ j ≤ total :=
      mem_addUnique_range hrng2
    have hrng4 : ∀ j : ℤ, PageEntry.num j ∈ p4 → 1 ≤ j ∧ j ≤ total :=
      mem_addUnique_range hrng3
    have hrng5 : ∀ j : ℤ, PageEntry.num j ∈ p5 → 1 ≤ j ∧ j ≤ total :=
      mem_addUnique_range hrng4
    have hrng6 : ∀ j : ℤ, PageEntry.num j ∈ p6 → 1 ≤ j ∧ j ≤ total :=
      range_pushDotsIf hrng5
    have hrng7 : ∀ j : ℤ, PageEntry.num j ∈ addUnique total p6 total →
        1 ≤ j ∧ j ≤ total :=
      mem_addUnique_range hrng6
    have hm1 : PageEntry.num 1 ∈ addUnique total p6 total := by
      apply mem_addUnique_of_mem
      apply mem_pushDotsIf.mpr
      apply mem_addUnique_of_mem
      apply mem_addUnique_of_mem
      apply mem_addUnique_of_mem
      apply mem_pushDotsIf.mpr
      exact mem_addUnique_self (le_refl 1) (by omega)
    have hmc : PageEntry.num current ∈ addUnique total p6 total := by
      apply mem_addUnique_of_mem
      apply mem_pushDotsIf.mpr
      apply mem_addUnique_of_mem
      exact mem_addUnique_self hc1 hc2
    have hmt : PageEntry.num total ∈ addUnique total p6 total :=
      mem_addUnique_self (by omega) (le_refl total)
    have hcount : ∀ j : ℤ, PageEntry.num j ∈ addUnique total p6 total →
        (addUnique total p6 total).count (PageEntry.num j) = 1 := by
      intro j hj
      have hpos : 0 < (addUnique total p6 total).count (PageEntry.num j) :=
        List.count_pos_iff.mpr hj
      have := hcnt7 j
      omega
    exact ⟨⟨hcount 1 hm1, hcount current hmc, hcount total hmt⟩,
      hrng7, fun habs => absurd habs h7⟩

/-- Concrete witness for C9: current = 5 of 10 pages. -/
theorem C9_pageRange_properties_witness :
    ((1 : ℤ) ≤ 5 ∧ (5 : ℤ) ≤ 10) ∧
    (((pageRange 5 10).count (PageEntry.num 1) = 1 ∧
      (pageRange 5 10).count (PageEntry.num 5) = 1 ∧
      (pageRange 5 10).count (PageEntry.num 10) = 1) ∧
     (∀ n : ℤ, PageEntry.num n ∈ pageRange 5 10 → 1 ≤ n ∧ n ≤ 10) ∧
     ((10 : ℤ) ≤ 7 →
       pageRange 5 10 =
         (List.range (10 : ℤ).toNat).map
           (fun i : ℕ => PageEntry.num ((i : ℤ) + 1)) ∧
       PageEntry.dots ∉ pageRange 5 10)) :=
  ⟨⟨by norm_num, by norm_num⟩,
   C9_pageRange_properties 5 10 (by norm_num) (by norm_num)⟩

/-- A JavaScript value sitting in a search-parameter entry
(src/web/src/api.ts). -/
inductive SVal where
  | str (s : String)
  | num (q : ℚ)
  | null
  | undef
  deriving DecidableEq

/-- From src/web/src/api.ts (searchProducts): an entry is kept unless its
value is undefined, null, or the empty string. -/
def keepParam (v : SVal) : Bool :=
  !(v == SVal.undef) && !(v == SVal.null) && !(v == SVal.str "")

/-- From src/web/src/api.ts (searchProducts): build the `clean` dictionary
by walking Object.entries(params) and copying each entry whose value passes
the check; keys are never renamed and no entry is synthesized. -/
def cleanParams (entries : List (String × SVal)) : List (String × SVal) :=
  entries.foldl (fun acc kv => if keepParam kv.2 then acc ++ [kv] else acc) []

/-- From src/web/src/api.ts (searchProducts): the request — GET /search
under the /api base URL, with the cleaned entries as query parameters. -/
def searchProductsRequest (entries : List (String × SVal)) :
    String × List (String × SVal) :=
  ("/api/search", cleanParams entries)

lemma mem_cleanParams_foldl (entries : List (String × SVal))
    (acc : List (String × SVal)) (x : String × SVal) :
    x ∈ entries.foldl
        (fun acc kv => if keepParam kv.2 then acc ++ [kv] else acc) acc ↔
      x ∈ acc ∨ (x ∈ entries ∧ keepParam x.2 = true) := by
  induction entries generalizing acc with
  | nil => simp
  | cons kv rest ih =>
      simp only [List.foldl]
      rw [ih]
      split_ifs with hk
      · simp only [List.mem_append, List.mem_singleton, List.not_mem_nil,
          or_false, List.mem_cons]
        constructor
        · rintro ((hx | hx) | hx)
          · exact Or.inl hx
          · subst hx
            exact Or.inr ⟨Or.inl rfl, hk⟩
          · exact Or.inr ⟨Or.inr hx.1, hx.2⟩
        · rintro (hx | ⟨hx | hx, hkeep⟩)
          · exact Or.inl (Or.inl hx)
          · subst hx
            exact Or.inl (Or.inr rfl)
          · exact Or.inr ⟨hx, hkeep⟩
      · simp only [List.mem_cons]
        constructor
        · rintro (hx | hx)
          · exact Or.inl hx
          · exact Or.inr ⟨Or.inr hx.1, hx.2⟩
        · rintro (hx | ⟨hx | hx, hkeep⟩)
          · exact Or.inl hx
          · subst hx
            exact absurd hkeep hk
          · exact Or.inr ⟨hx, hkeep⟩

lemma keepParam_iff (v : SVal) :
    keepParam v = true ↔
      v ≠ SVal.undef ∧ v ≠ SVal.null ∧ v ≠ SVal.str "" := by
  cases v <;> simp [keepParam]

/-- C10: searchProducts sends to the /api/search endpoint exactly those
key/value pairs of its input whose values are not undefined, not null, and
not the empty string; no key is renamed and no other key is added. -/
theorem C10_searchProducts_params (entries : List (String × SVal))
    (k : String) (v : SVal) :
    (searchProductsRequest entries).1 = "/api/search" ∧
    ((k, v) ∈ (searchProductsRequest entries).2 ↔
      (k, v) ∈ entries ∧ v ≠ SVal.undef ∧ v ≠ SVal.null ∧
        v ≠ SVal.str "") := by
  refine ⟨rfl, ?_⟩
  rw [searchProductsRequest, cleanParams, mem_cleanParams_foldl]
  simp only [List.not_mem_nil, false_or]
  rw [keepParam_iff]

end Marketplace
